import Mathlib

/-!
Verification of `scripts/generate_room_ir_data.py`.

The script is a deterministic offline pipeline: decode WAV bytes to float
samples, peak-normalize, build a decimated preview, and emit C++ arrays.

Embedding conventions:
* Python floats are modelled as exact rationals (`ℚ`); float arithmetic is
  modelled as exact rational arithmetic.  Decimal literals such as `0.95`
  and `1e-12` are modelled as the exact rationals they denote.
* Python exceptions (`ValueError`, `struct.error`, `ZeroDivisionError`) are
  modelled with `Except String` / `Option`.
* File paths are abstracted to their stems; the `wave` module's container
  parsing is abstracted into a `WavFile` record holding the header fields the
  script reads plus the raw data bytes returned by `readframes`.
-/

namespace RoomIr

/-- Python's `round` on an exact value: round half to even, as applied by
`int(round(i * step))` in `_build_preview`. -/
def roundHE (q : ℚ) : ℤ :=
  let f := ⌊q⌋
  let frac := q - (f : ℚ)
  if frac < 1/2 then f
  else if 1/2 < frac then f + 1
  else if f % 2 = 0 then f else f + 1

/-- `max(-1.0, min(1.0, v))` as used by `_read_wav` on every decoded sample. -/
def clamp1 (v : ℚ) : ℚ := max (-1) (min 1 v)

/-- `struct.unpack "<h"`: a little-endian byte pair as a signed 16-bit
integer. -/
def toInt16 (u : ℕ) : ℤ := if u < 32768 then (u : ℤ) else (u : ℤ) - 65536

/-- `struct.unpack("<" + "h"*count, raw)`: consecutive little-endian byte
pairs as signed 16-bit integers (a trailing odd byte is never reached; the
caller checks the length). -/
def unpack16 : List ℕ → List ℤ
  | b0 :: b1 :: rest => toInt16 (b0 + 256 * b1) :: unpack16 rest
  | _ => []

/-- PCM16 branch of `_read_wav`: `max(-1.0, min(1.0, v / 32768.0))`. -/
def decode16 (raw : List ℕ) : List ℚ :=
  (unpack16 raw).map (fun (v : ℤ) => clamp1 ((v : ℚ) / 32768))

/-- Value of an IEEE-754 binary32 bit pattern, `none` for infinities and
NaNs, which fall outside the exact-rational model of floats. -/
def f32Val (bits : ℕ) : Option ℚ :=
  let s : ℕ := bits / 2 ^ 31 % 2
  let e : ℕ := bits / 2 ^ 23 % 256
  let m : ℕ := bits % 2 ^ 23
  if e = 255 then none
  else
    let mag : ℚ :=
      if e = 0 then (m : ℚ) / 2 ^ 149
      else ((2 ^ 23 + m : ℕ) : ℚ) * 2 ^ e / 2 ^ 150
    some (if s = 1 then -mag else mag)

/-- `struct.unpack("<" + "f"*count, raw)`: consecutive little-endian 4-byte
groups as binary32 values. -/
def unpackF32 : List ℕ → Option (List ℚ)
  | b0 :: b1 :: b2 :: b3 :: rest => do
      let v ← f32Val (b0 + 256 * b1 + 65536 * b2 + 16777216 * b3)
      let vs ← unpackF32 rest
      some (v :: vs)
  | _ :: _ => none
  | [] => some []

/-- `samples[0::2]` (and, applied to the tail, `samples[1::2]`). -/
def everyOther : List α → List α
  | [] => []
  | [a] => [a]
  | a :: _ :: rest => a :: everyOther rest

/-- The fields of a WAV container that `_read_wav` consults via the `wave`
module, plus the raw frame bytes returned by `readframes`. -/
structure WavFile where
  nchannels : ℕ
  framerate : ℕ
  sampwidth : ℕ
  comptype : String
  raw : List ℕ
deriving DecidableEq, Repr

/-- `_read_wav`: returns `(sample_rate, channels, left_or_mono, right?)`.
`struct.unpack` raises `struct.error` when the buffer length does not match
`count` items exactly (possible when `len(raw)` is not a multiple of the
sample width). -/
def readWav (w : WavFile) : Except String (ℕ × ℕ × List ℚ × Option (List ℚ)) := do
  if w.comptype ≠ "NONE" then
    throw ("unsupported compression " ++ w.comptype)
  else if ¬ (w.nchannels = 1 ∨ w.nchannels = 2) then
    throw "expected mono/stereo wav"
  else do
    let samples ←
      if w.sampwidth = 2 then
        if w.raw.length % 2 = 0 then pure (decode16 w.raw)
        else throw "struct.error: unpack requires a matching buffer length"
      else if w.sampwidth = 4 then
        if w.raw.length % 4 = 0 then
          match unpackF32 w.raw with
          | some vs => pure (vs.map clamp1)
          | none => throw "non-finite float32 sample (outside exact model)"
        else throw "struct.error: unpack requires a matching buffer length"
      else
        throw ("unsupported sample width " ++ toString w.sampwidth)
    if w.nchannels = 1 then
      pure (w.framerate, 1, samples, none)
    else
      pure (w.framerate, 2, everyOther samples, some (everyOther samples.tail))

/-- The peak accumulation loop of `_normalize_peak`:
`for s in xs: peak = max(peak, abs(s))`. -/
def peakFold (xs : List ℚ) (init : ℚ) : ℚ :=
  xs.foldl (fun p s => max p |s|) init

/-- The global peak over both channels, starting from `peak = 0.0`. -/
def globalPeak (l : List ℚ) (r : Option (List ℚ)) : ℚ :=
  match r with
  | none => peakFold l 0
  | some rr => peakFold rr (peakFold l 0)

/-- `_normalize_peak`. -/
def normalizePeak (l : List ℚ) (r : Option (List ℚ)) (target : ℚ) :
    List ℚ × Option (List ℚ) :=
  let peak := globalPeak l r
  if peak < 1 / 10 ^ 12 then (l, r)
  else
    let scale := target / peak
    (l.map (· * scale), r.map (fun rr => rr.map (· * scale)))

/-- `_build_preview`.  `none` models the `ZeroDivisionError` raised by the
stride computation `(len(samples) - 1) / (max_samples - 1)` when
`max_samples == 1` and the earlier branches did not return. -/
def buildPreview (samples : List ℚ) (maxSamples : ℤ) : Option (List ℚ) :=
  if maxSamples ≤ 0 ∨ samples = [] then some []
  else if (samples.length : ℤ) ≤ maxSamples then some samples
  else if maxSamples = 1 then none
  else
    let step : ℚ := ((samples.length : ℚ) - 1) / ((maxSamples : ℚ) - 1)
    some ((List.range maxSamples.toNat).map fun (i : ℕ) =>
      let idx := roundHE ((i : ℚ) * step)
      samples.getD (max 0 (min ((samples.length : ℤ) - 1) idx)).toNat 0)

/-! ### The float formatter `f"{v:.7g}"` (used by `_format_float_array`)

Python's `.7g` formatting of a float: round to 7 significant decimal digits
(half to even), strip insignificant trailing zeros, use fixed notation when
the decimal exponent `e` satisfies `-4 ≤ e < 7` and scientific notation (with
an at-least-two-digit exponent field) otherwise.  The embedding computes this
on the exact rational value. -/

def digitChar (d : ℕ) : Char := Char.ofNat (48 + d)

/-- `⌊log10 n⌋` for naturals, by fuel (structural, so that proofs can
evaluate it). -/
def log10fuel : ℕ → ℕ → ℕ
  | 0, _ => 0
  | fuel + 1, n => if n < 10 then 0 else log10fuel fuel (n / 10) + 1

def log10nat (n : ℕ) : ℕ := log10fuel n n

/-- Little-endian decimal digits, by fuel (structural). -/
def digitsFuel : ℕ → ℕ → List ℕ
  | 0, _ => []
  | fuel + 1, n => if n = 0 then [] else n % 10 :: digitsFuel fuel (n / 10)

/-- Little-endian decimal digits of `n` (empty for `0`). -/
def digits10 (n : ℕ) : List ℕ := digitsFuel n n

/-- `⌊log10 a⌋` for a positive rational `a`: the unique `e` with
`10 ^ e ≤ a < 10 ^ (e + 1)`. -/
def log10floor (a : ℚ) : ℤ :=
  if 1 ≤ a then (log10nat ⌊a⌋.toNat : ℤ)
  else
    let k : ℕ := log10nat ⌊a⁻¹⌋.toNat
    if 1 ≤ a * 10 ^ k then -(k : ℤ) else -(k : ℤ) - 1

/-- Significand (7 decimal digits, `10^6 ≤ m < 10^7`) and decimal exponent of
a positive rational, rounding half to even; a carry out of the rounding
(`m = 10^7`) shifts into the next decade. -/
def sig7 (a : ℚ) : ℕ × ℤ :=
  let e := log10floor a
  let m0 := (roundHE (a * (10 : ℚ) ^ (6 - e))).toNat
  if m0 = 10 ^ 7 then (10 ^ 6, e + 1) else (m0, e)

/-- Big-endian decimal digits of the significand with trailing zeros
stripped (the insignificant zeros `g` formatting removes). -/
def sigDigits (m : ℕ) : List ℕ :=
  ((digits10 m).dropWhile (fun d => d = 0)).reverse

/-- Fixed-notation rendering of significant digits `ds` at exponent `e`
(`-4 ≤ e < 7`). -/
def renderFixed (ds : List Char) (e : ℤ) : List Char :=
  if 0 ≤ e then
    let n := e.toNat + 1
    let ip := ds.take n ++ List.replicate (n - ds.length) '0'
    let fp := ds.drop n
    if fp = [] then ip else ip ++ '.' :: fp
  else
    '0' :: '.' :: (List.replicate (-(e + 1)).toNat '0' ++ ds)

/-- The `e±XX` exponent field (at least two digits). -/
def renderExpPart (e : ℤ) : List Char :=
  let sign := if e < 0 then '-' else '+'
  let ds := (digits10 e.natAbs).reverse.map digitChar
  let ds2 := if ds.length < 2 then List.replicate (2 - ds.length) '0' ++ ds else ds
  'e' :: sign :: ds2

/-- Scientific-notation rendering of significant digits `ds` at exponent
`e`. -/
def renderSci (ds : List Char) (e : ℤ) : List Char :=
  (match ds with
   | [] => ['0']
   | d :: rest => if rest = [] then [d] else d :: '.' :: rest) ++ renderExpPart e

/-- `.7g` formatting of a positive rational. -/
def fmtPosG7 (a : ℚ) : List Char :=
  let me := sig7 a
  let ds := (sigDigits me.1).map digitChar
  if -4 ≤ me.2 ∧ me.2 < 7 then renderFixed ds me.2 else renderSci ds me.2

/-- `f"{v:.7g}"` on the exact rational value of `v`. -/
def fmtG7 (v : ℚ) : List Char :=
  if v = 0 then ['0']
  else if v < 0 then '-' :: fmtPosG7 (-v)
  else fmtPosG7 v

/-- `re.fullmatch(r"-?\d+", base)`: an optional minus followed by one or
more digits, nothing else. -/
def isIntString (s : List Char) : Bool :=
  match s with
  | '-' :: rest => rest ≠ [] && rest.all Char.isDigit
  | _ => s ≠ [] && s.all Char.isDigit

/-- The number of significant digits a rendered literal shows: digit
characters of the significand (before any exponent marker), not counting
leading zeros. -/
def sigDigitCount (s : List Char) : ℕ :=
  (((s.takeWhile (fun c => c ≠ 'e')).filter Char.isDigit).dropWhile
    (fun c => c = '0')).length

/-- One literal of `_format_float_array`: the `.7g` base, `".0"` appended
when the base is a bare integer string, then the `f` suffix. -/
def mkFloatLiteral (v : ℚ) : List Char :=
  let base := fmtG7 v
  let base2 := if isIntString base then base ++ ['.', '0'] else base
  base2 ++ ['f']

def floatLiterals (values : List ℚ) : List (List Char) := values.map mkFloatLiteral

/-- The line-wrapping loop of `_format_float_array`: append literals to the
current line, flushing it once it holds 12. -/
def groupLinesAux : List (List Char) → List (List Char) → List (List (List Char))
  | [], line => if line = [] then [] else [line]
  | v :: rest, line =>
    let line2 := line ++ [v]
    if 12 ≤ line2.length then line2 :: groupLinesAux rest []
    else groupLinesAux rest line2

def groupLines (lits : List (List Char)) : List (List (List Char)) :=
  groupLinesAux lits []

/-- How many float literals the emitted initializer for `values` contains.
`sizeof(arr)/sizeof(float)` in the generated C++ equals this count. -/
def emittedLiteralCount (values : List ℚ) : ℕ :=
  ((groupLines (floatLiterals values)).flatten).length

def renderLine (line : List (List Char)) : String :=
  String.intercalate ", " (line.map (fun l => String.mk l))

/-- `_format_float_array`: the full emitted array declaration. -/
def formatFloatArray (name : String) (values : List ℚ) : String :=
  let body := String.intercalate ",\n    " ((groupLines (floatLiterals values)).map renderLine)
  "static const float " ++ name ++ "[] = \x7b\n    " ++ body ++ "\n\x7d;\n"

/-! ### `_title_from_id`, items, and the main batch loop -/

def isSep (c : Char) : Bool := c = '_' || c = '-' || c = '\\'

def isPySpace (c : Char) : Bool :=
  c = ' ' || c = '\t' || c = '\n' || c = '\r' || c = '\x0b' || c = '\x0c'

/-- Python `str.strip()`. -/
def pyStrip (s : List Char) : List Char :=
  ((s.dropWhile isPySpace).reverse.dropWhile isPySpace).reverse

/-- `re.sub(r"[_\\-]+", " ", s)`: each maximal run of separators becomes a
single space.  The flag records whether the previous character was part of a
separator run. -/
def collapseSepsAux : Bool → List Char → List Char
  | _, [] => []
  | inRun, c :: rest =>
    if isSep c then
      (if inRun then [] else [' ']) ++ collapseSepsAux true rest
    else c :: collapseSepsAux false rest

def collapseSeps (s : List Char) : List Char := collapseSepsAux false s

/-- `w[:1].upper() + w[1:]`. -/
def capitalizeWord : List Char → List Char
  | [] => []
  | c :: rest => c.toUpper :: rest

/-- Python `s.split(" ")`: fields between single spaces, empties kept. -/
def splitOnSpace : List Char → List (List Char)
  | [] => [[]]
  | c :: rest =>
    match splitOnSpace rest with
    | [] => [[c]]
    | w :: ws => if c = ' ' then [] :: w :: ws else (c :: w) :: ws

/-- `_title_from_id`. -/
def titleFromId (stem : String) : String :=
  let collapsed := collapseSeps (pyStrip stem.toList)
  let words := (splitOnSpace collapsed).filter (fun w => w ≠ [])
  String.mk (List.intercalate [' '] (words.map capitalizeWord))

/-- The `IrItem` dataclass. -/
structure IrItem where
  ir_id : String
  display : String
  sample_rate : ℕ
  channels : ℕ
  samples_l : List ℚ
  samples_r : Option (List ℚ)
  preview : List ℚ
deriving DecidableEq, Repr

/-- The preview source selection in `main`: the mono/left channel, or the
per-frame average `(l + r) * 0.5` of the two normalized channels. -/
def previewSource (ch : ℕ) (l : List ℚ) (r : Option (List ℚ)) : List ℚ :=
  match r with
  | none => l
  | some rr => if ch = 1 then l else l.zipWith (fun a b => (a + b) * (1/2)) rr

/-- The per-file body of `main`'s loop after the duplicate-id check:
decode, stereo-length check, normalize, preview, construct the item. -/
def processFile (previewMax : ℤ) (stem : String) (w : WavFile) :
    Except String IrItem := do
  let (sr, ch, l0, r0) ← readWav w
  if ch = 2 ∧ (r0 = none ∨ l0.length ≠ (r0.getD []).length) then
    throw (stem ++ ": stereo decode produced mismatched channel lengths")
  else
    let lr := normalizePeak l0 r0 (95/100)
    match buildPreview (previewSource ch lr.1 lr.2) previewMax with
    | none => throw (stem ++ ": ZeroDivisionError")
    | some pv => pure ⟨stem, titleFromId stem, sr, ch, lr.1, lr.2, pv⟩

/-- The exact text of the duplicate-identifier error in `main`. -/
def dupMsg (id : String) : String := "duplicate IR id (filename stem): " ++ id

/-- `main`'s loop over the (sorted) input files, carrying the `seen_ids`
set.  The duplicate check precedes the decoding of the current file, but
files earlier in the order are fully processed first. -/
def runBatchAux (previewMax : ℤ) :
    List String → List (String × WavFile) → Except String (List IrItem)
  | _, [] => .ok []
  | seen, (stem, w) :: rest =>
    if stem ∈ seen then .error (dupMsg stem)
    else do
      let item ← processFile previewMax stem w
      let items ← runBatchAux previewMax (stem :: seen) rest
      pure (item :: items)

def runBatch (previewMax : ℤ) (files : List (String × WavFile)) :
    Except String (List IrItem) :=
  runBatchAux previewMax [] files

/-- `re.sub(r"[^A-Za-z0-9_]", "_", ir_id)`. -/
def sanitizeId (s : String) : String :=
  String.mk (s.toList.map (fun c => if c.isAlphanum || c = '_' then c else '_'))

/-- The static arrays emitted for one item. -/
def itemArrays (it : IrItem) : String :=
  let base := sanitizeId it.ir_id
  formatFloatArray ("kIr_" ++ base ++ "_samplesL") it.samples_l ++ "\n" ++
  (if it.channels = 2 ∧ it.samples_r ≠ none then
      formatFloatArray ("kIr_" ++ base ++ "_samplesR") (it.samples_r.getD []) ++ "\n"
    else "") ++
  formatFloatArray ("kIr_" ++ base ++ "_preview") it.preview ++ "\n"

/-- One record of the `kItems` table. -/
def itemRecord (it : IrItem) : String :=
  let base := sanitizeId it.ir_id
  "    \x7b\n" ++
  "        \"" ++ it.ir_id ++ "\",\n" ++
  "        \"" ++ it.display ++ "\",\n" ++
  "        " ++ toString it.sample_rate ++ ",\n" ++
  "        " ++ toString it.channels ++ ",\n" ++
  "        kIr_" ++ base ++ "_samplesL,\n" ++
  (if it.channels = 2 ∧ it.samples_r ≠ none then
      "        kIr_" ++ base ++ "_samplesR,\n"
    else "        nullptr,\n") ++
  "        sizeof(kIr_" ++ base ++ "_samplesL) / sizeof(float),\n" ++
  "        kIr_" ++ base ++ "_preview,\n" ++
  "        sizeof(kIr_" ++ base ++ "_preview) / sizeof(float),\n" ++
  "    \x7d,\n"

/-- The generated definition file. -/
def cppText (items : List IrItem) : String :=
  "#include \"room_ir/RoomIrData.h\"\n\nnamespace dsp::room_ir \x7b\n\n" ++
  String.join (items.map itemArrays) ++
  "static const Item kItems[] = \x7b\n" ++
  String.join (items.map itemRecord) ++
  "\x7d;\n\nconst Item* items(std::size_t* outCount) \x7b\n" ++
  "    if (outCount) \x7b\n        *outCount = sizeof(kItems) / sizeof(Item);\n    \x7d\n" ++
  "    return kItems;\n\x7d\n\n\x7d  // namespace dsp::room_ir\n"

/-- The generated header (a constant). -/
def headerText : String :=
  "#pragma once\n\n#include <cstddef>\n\nnamespace dsp::room_ir \x7b\n\n" ++
  "struct Item \x7b\n    const char* id;\n    const char* displayName;\n" ++
  "    int sampleRate;\n    int channels;\n    const float* samplesL;\n" ++
  "    const float* samplesR;\n    std::size_t frameCount;\n" ++
  "    const float* preview;\n    std::size_t previewCount;\n\x7d;\n\n" ++
  "const Item* items(std::size_t* outCount);\n\n\x7d  // namespace dsp::room_ir\n"

/-- `main` without CLI/filesystem: fails on an empty input set, otherwise
processes every file and, only on success, produces the two output texts. -/
def mainRun (previewMax : ℤ) (files : List (String × WavFile)) :
    Except String (String × String) := do
  if files = [] then
    throw "no .wav/.wv files found"
  else do
    let items ← runBatch previewMax files
    pure (headerText, cppText items)

/-! ## Helper lemmas -/

theorem roundHE_intCast (n : ℤ) : roundHE (n : ℚ) = n := by
  unfold roundHE
  rw [Int.floor_intCast]
  simp

/-- C2: `_build_preview` returns `[]` when `max_samples <= 0` or the input is
empty; returns the input itself when its length is at most `max_samples`; and
for `max_samples ≥ 2` with a strictly longer input, returns a preview of
length exactly `max_samples`. -/
theorem buildPreview_cases (samples : List ℚ) (maxSamples : ℤ) :
    ((maxSamples ≤ 0 ∨ samples = []) → buildPreview samples maxSamples = some []) ∧
    ((samples.length : ℤ) ≤ maxSamples → buildPreview samples maxSamples = some samples) ∧
    (2 ≤ maxSamples → maxSamples < (samples.length : ℤ) →
      ∃ out, buildPreview samples maxSamples = some out ∧
        (out.length : ℤ) = maxSamples) := by
  refine ⟨?_, ?_, ?_⟩
  · intro h
    unfold buildPreview
    rw [if_pos h]
  · intro h
    by_cases h0 : maxSamples ≤ 0 ∨ samples = []
    · have he : samples = [] := by
        rcases h0 with h0 | h0
        · have : samples.length = 0 := by omega
          exact List.length_eq_zero.mp this
        · exact h0
      unfold buildPreview
      rw [if_pos h0, he]
    · unfold buildPreview
      rw [if_neg h0, if_pos h]
  · intro h2 hlt
    have h0 : ¬ (maxSamples ≤ 0 ∨ samples = []) := by
      push_neg
      refine ⟨by omega, ?_⟩
      intro he
      rw [he] at hlt
      simp at hlt
      omega
    have h1 : ¬ ((samples.length : ℤ) ≤ maxSamples) := by omega
    have hne : ¬ (maxSamples = 1) := by omega
    unfold buildPreview
    rw [if_neg h0, if_neg h1, if_neg hne]
    refine ⟨_, rfl, ?_⟩
    simp
    omega

/-- C10: with `max_samples = 1` and at least two input samples, none of the
early returns of `_build_preview` fires and the stride computation
`(len - 1) / (max_samples - 1)` divides by zero: the call raises
(modelled as `none`) instead of returning a one-element preview. -/
theorem buildPreview_maxOne_fails (samples : List ℚ) (h : 2 ≤ samples.length) :
    buildPreview samples 1 = none := by
  have h0 : ¬ ((1 : ℤ) ≤ 0 ∨ samples = []) := by
    push_neg
    refine ⟨by norm_num, ?_⟩
    intro he
    rw [he] at h
    simp at h
  have h1 : ¬ ((samples.length : ℤ) ≤ 1) := by omega
  unfold buildPreview
  rw [if_neg h0, if_neg h1, if_pos rfl]

theorem buildPreview_maxOne_fails_witness :
    buildPreview [0, 1] 1 = none :=
  buildPreview_maxOne_fails [0, 1] (by simp)

/-! ### Peak-fold lemmas -/

theorem peakFold_cons (a : ℚ) (t : List ℚ) (init : ℚ) :
    peakFold (a :: t) init = peakFold t (max init |a|) := rfl

theorem le_peakFold (xs : List ℚ) (init : ℚ) : init ≤ peakFold xs init := by
  induction xs generalizing init with
  | nil => simp [peakFold]
  | cons a t ih =>
    rw [peakFold_cons]
    exact le_trans (le_max_left _ _) (ih (max init |a|))

theorem abs_le_peakFold (xs : List ℚ) (init : ℚ) (v : ℚ) (hv : v ∈ xs) :
    |v| ≤ peakFold xs init := by
  induction xs generalizing init with
  | nil => simp at hv
  | cons a t ih =>
    rw [peakFold_cons]
    rcases List.mem_cons.mp hv with h | h
    · subst h
      exact le_trans (le_max_right _ _) (le_peakFold t _)
    · exact ih _ h

theorem peakFold_nonneg (xs : List ℚ) (init : ℚ) (h : 0 ≤ init) :
    0 ≤ peakFold xs init :=
  le_trans h (le_peakFold xs init)

theorem peakFold_map_mul (xs : List ℚ) (c : ℚ) (hc : 0 ≤ c) (init : ℚ) :
    peakFold (xs.map (· * c)) (init * c) = peakFold xs init * c := by
  induction xs generalizing init with
  | nil => simp [peakFold]
  | cons a t ih =>
    rw [List.map_cons, peakFold_cons, peakFold_cons]
    rw [show max (init * c) |a * c| = max init |a| * c by
      rw [abs_mul, abs_of_nonneg hc, max_mul_of_nonneg _ _ hc]]
    exact ih _

theorem globalPeak_nonneg (l : List ℚ) (r : Option (List ℚ)) :
    0 ≤ globalPeak l r := by
  cases r with
  | none => exact peakFold_nonneg _ _ le_rfl
  | some rr => exact peakFold_nonneg _ _ (peakFold_nonneg _ _ le_rfl)

theorem abs_le_globalPeak_left (l : List ℚ) (r : Option (List ℚ)) (v : ℚ)
    (hv : v ∈ l) : |v| ≤ globalPeak l r := by
  cases r with
  | none => exact abs_le_peakFold _ _ _ hv
  | some rr => exact le_trans (abs_le_peakFold _ _ _ hv) (le_peakFold _ _)

theorem abs_le_globalPeak_right (l : List ℚ) (rr : List ℚ) (v : ℚ)
    (hv : v ∈ rr) : |v| ≤ globalPeak l (some rr) :=
  abs_le_peakFold _ _ _ hv

theorem globalPeak_map_mul (l : List ℚ) (r : Option (List ℚ)) (c : ℚ)
    (hc : 0 ≤ c) :
    globalPeak (l.map (· * c)) (r.map (fun rr => rr.map (· * c))) =
      globalPeak l r * c := by
  have h1 : peakFold (List.map (fun x => x * c) l) 0 = peakFold l 0 * c := by
    have h := peakFold_map_mul l c hc 0
    rwa [zero_mul] at h
  cases r with
  | none => exact h1
  | some rr =>
    show peakFold (List.map (fun x => x * c) rr)
        (peakFold (List.map (fun x => x * c) l) 0) =
      peakFold rr (peakFold l 0) * c
    rw [h1]
    exact peakFold_map_mul rr c hc _

/-- C1: `_normalize_peak` preserves the per-channel lengths; when the global
peak is below `1e-12` it returns the input unchanged; otherwise both channels
are scaled by the single factor `target / peak` (`target = 0.95`), making the
peak absolute value over all output channels exactly `0.95` (exact in the
rational model of float arithmetic). -/
theorem normalizePeak_spec (l : List ℚ) (r : Option (List ℚ)) :
    ((normalizePeak l r (95/100)).1.length = l.length ∧
      (normalizePeak l r (95/100)).2.map List.length = r.map List.length) ∧
    (globalPeak l r < 1 / 10 ^ 12 → normalizePeak l r (95/100) = (l, r)) ∧
    (1 / 10 ^ 12 ≤ globalPeak l r →
      globalPeak (normalizePeak l r (95/100)).1 (normalizePeak l r (95/100)).2
          = 95/100 ∧
      (normalizePeak l r (95/100)).1 = l.map (· * (95/100 / globalPeak l r)) ∧
      (normalizePeak l r (95/100)).2 =
        r.map (fun rr => rr.map (· * (95/100 / globalPeak l r)))) := by
  refine ⟨⟨?_, ?_⟩, ?_, ?_⟩
  · simp only [normalizePeak]
    split <;> simp
  · simp only [normalizePeak]
    split
    · rfl
    · cases r <;> simp
  · intro h
    simp only [normalizePeak]
    rw [if_pos h]
  · intro h
    have hpos : 0 < globalPeak l r := lt_of_lt_of_le (by norm_num) h
    have hne : globalPeak l r ≠ 0 := ne_of_gt hpos
    have hc : 0 ≤ 95/100 / globalPeak l r := by positivity
    have hnl : ¬ (globalPeak l r < 1 / 10 ^ 12) := not_lt.mpr h
    have e1 : (normalizePeak l r (95/100)).1 =
        l.map (· * (95/100 / globalPeak l r)) := by
      simp only [normalizePeak]
      rw [if_neg hnl]
    have e2 : (normalizePeak l r (95/100)).2 =
        r.map (fun rr => rr.map (· * (95/100 / globalPeak l r))) := by
      simp only [normalizePeak]
      rw [if_neg hnl]
    refine ⟨?_, e1, e2⟩
    rw [e1, e2, globalPeak_map_mul l r _ hc, mul_comm]
    exact div_mul_cancel₀ _ hne

/-! ### Normalization shape lemmas and the preview index formula -/

theorem normalizePeak_fst_length (l : List ℚ) (r : Option (List ℚ)) (t : ℚ) :
    (normalizePeak l r t).1.length = l.length := by
  simp only [normalizePeak]
  split <;> simp

theorem normalizePeak_snd_some (l rr : List ℚ) (t : ℚ) :
    (normalizePeak l (some rr) t).2 =
      some (((normalizePeak l (some rr) t).2).getD []) := by
  simp only [normalizePeak]
  split <;> simp

theorem normalizePeak_snd_length (l rr : List ℚ) (t : ℚ) :
    (((normalizePeak l (some rr) t).2).getD []).length = rr.length := by
  simp only [normalizePeak]
  split <;> simp

theorem buildPreview_long (samples : List ℚ) (maxSamples : ℤ)
    (h2 : 2 ≤ maxSamples) (hlt : maxSamples < (samples.length : ℤ)) :
    ∃ out, buildPreview samples maxSamples = some out ∧
      out.length = maxSamples.toNat ∧
      ∀ i, i < maxSamples.toNat →
        out.getD i 0 = samples.getD
          (max 0 (min ((samples.length : ℤ) - 1)
            (roundHE ((i : ℚ) *
              (((samples.length : ℚ) - 1) / ((maxSamples : ℚ) - 1)))))).toNat 0 := by
  have h0 : ¬ (maxSamples ≤ 0 ∨ samples = []) := by
    push_neg
    refine ⟨by omega, ?_⟩
    intro he
    rw [he] at hlt
    simp at hlt
    omega
  have h1 : ¬ ((samples.length : ℤ) ≤ maxSamples) := by omega
  have hne : ¬ (maxSamples = 1) := by omega
  unfold buildPreview
  rw [if_neg h0, if_neg h1, if_neg hne]
  refine ⟨_, rfl, by simp, ?_⟩
  intro i hi
  rw [List.getD_eq_getElem _ _ (by simpa using hi)]
  simp

/-- C7: for a stereo item the preview source is the per-frame average
`(l + r) * 0.5` of the two normalized channels (never a single channel), and
for 100 frames with `maxSamples = 10` the preview consists of exactly 10
point samples of that averaged signal at indices `11 * i`, so the first
selected index is 0 and the last is 99. -/
theorem stereoPreview_spec (l r : List ℚ) :
    previewSource 2 (normalizePeak l (some r) (95/100)).1
        ((normalizePeak l (some r) (95/100)).2) =
      List.zipWith (fun a b => (a + b) * (1/2))
        (normalizePeak l (some r) (95/100)).1
        (((normalizePeak l (some r) (95/100)).2).getD []) ∧
    (l.length = 100 → r.length = 100 →
      ∃ out,
        buildPreview
          (List.zipWith (fun a b => (a + b) * (1/2))
            (normalizePeak l (some r) (95/100)).1
            (((normalizePeak l (some r) (95/100)).2).getD [])) 10 = some out ∧
        out.length = 10 ∧
        ∀ i, i < 10 → out.getD i 0 =
          (List.zipWith (fun a b => (a + b) * (1/2))
            (normalizePeak l (some r) (95/100)).1
            (((normalizePeak l (some r) (95/100)).2).getD [])).getD (11 * i) 0) := by
  constructor
  · rw [normalizePeak_snd_some l r (95/100)]
    simp [previewSource]
  · intro hl hr
    set sig := List.zipWith (fun a b => (a + b) * (1/2))
      (normalizePeak l (some r) (95/100)).1
      (((normalizePeak l (some r) (95/100)).2).getD []) with hsig
    have hlen : sig.length = 100 := by
      rw [hsig, List.length_zipWith, normalizePeak_fst_length,
        normalizePeak_snd_length, hl, hr]
      rfl
    obtain ⟨out, hout, hlen2, hidx⟩ :=
      buildPreview_long sig 10 (by norm_num) (by rw [hlen]; norm_num)
    refine ⟨out, hout, by simpa using hlen2, ?_⟩
    intro i hi
    rw [hidx i (by simpa using hi)]
    congr 1
    rw [hlen]
    have hstep : (((100 : ℕ) : ℚ) - 1) / (((10 : ℤ) : ℚ) - 1) = 11 := by
      norm_num
    rw [hstep]
    have hrnd : roundHE ((i : ℚ) * 11) = (11 * i : ℤ) := by
      rw [show ((i : ℚ) * 11) = (((11 * i : ℤ) : ℚ)) by push_cast; ring]
      exact roundHE_intCast _
    rw [hrnd]
    omega

/-! ### Emission counts (C5) -/

theorem groupLinesAux_flatten (lits : List (List Char)) :
    ∀ line, (groupLinesAux lits line).flatten = line ++ lits := by
  induction lits with
  | nil =>
    intro line
    by_cases h : line = [] <;> simp [groupLinesAux, h]
  | cons v rest ih =>
    intro line
    simp only [groupLinesAux]
    split
    · simp [ih]
    · rw [ih (line ++ [v])]
      simp

theorem emittedLiteralCount_eq (values : List ℚ) :
    emittedLiteralCount values = values.length := by
  unfold emittedLiteralCount groupLines floatLiterals
  rw [groupLinesAux_flatten]
  simp

/-- C5: the initializer emitted for a sequence of `n` floats holds exactly
`n` literals, so the element counts the generated code derives from the
arrays' own sizes (`sizeof(arr)/sizeof(float)`, i.e. the number of emitted
literals) equal the original per-channel and preview sequence lengths. -/
theorem emittedCounts_spec (it : IrItem) :
    emittedLiteralCount it.samples_l = it.samples_l.length ∧
    it.samples_r.map (fun rr => emittedLiteralCount rr) =
      it.samples_r.map List.length ∧
    emittedLiteralCount it.preview = it.preview.length := by
  refine ⟨emittedLiteralCount_eq _, ?_, emittedLiteralCount_eq _⟩
  cases it.samples_r <;> simp [emittedLiteralCount_eq]

/-! ### PCM16 decoding (C3, C9) -/

theorem unpack16_length : ∀ bs : List ℕ, (unpack16 bs).length = bs.length / 2
  | [] => by simp [unpack16]
  | [b] => by simp [unpack16]
  | b0 :: b1 :: rest => by
    simp [unpack16, unpack16_length rest]
    omega

theorem unpack16_getD : ∀ (bs : List ℕ) (i : ℕ), i < (unpack16 bs).length →
    (unpack16 bs).getD i 0 =
      toInt16 (bs.getD (2*i) 0 + 256 * bs.getD (2*i+1) 0)
  | [], i, h => by simp [unpack16] at h
  | [b], i, h => by simp [unpack16] at h
  | b0 :: b1 :: rest, 0, h => by simp [unpack16]
  | b0 :: b1 :: rest, i+1, h => by
    have hlen : i < (unpack16 rest).length := by
      simpa [unpack16] using h
    have ih := unpack16_getD rest i hlen
    rw [show unpack16 (b0 :: b1 :: rest) =
      toInt16 (b0 + 256 * b1) :: unpack16 rest from rfl]
    rw [List.getD_cons_succ, ih]
    have e1 : 2 * (i + 1) = 2 * i + 1 + 1 := by omega
    rw [e1]
    simp only [List.getD_cons_succ]

theorem decode16_length (raw : List ℕ) :
    (decode16 raw).length = raw.length / 2 := by
  simp [decode16, unpack16_length]

theorem decode16_getD (raw : List ℕ) (j : ℕ) (h : j < (decode16 raw).length) :
    (decode16 raw).getD j 0 =
      clamp1 ((toInt16 (raw.getD (2*j) 0 + 256 * raw.getD (2*j+1) 0) : ℚ) / 32768) := by
  unfold decode16
  rw [List.getD_eq_getElem _ _ (by simpa [decode16] using h)]
  rw [List.getElem_map]
  rw [← List.getD_eq_getElem _ 0 (by simpa [decode16] using h)]
  rw [unpack16_getD raw j (by simpa [decode16] using h)]

theorem everyOther_length : ∀ xs : List ℚ,
    (everyOther xs).length = (xs.length + 1) / 2
  | [] => by simp [everyOther]
  | [a] => by simp [everyOther]
  | a :: b :: rest => by
    simp [everyOther, everyOther_length rest]
    omega

theorem everyOther_getD : ∀ (xs : List ℚ) (i : ℕ), i < (everyOther xs).length →
    (everyOther xs).getD i 0 = xs.getD (2*i) 0
  | [], i, h => by simp [everyOther] at h
  | [a], 0, h => by simp [everyOther]
  | [a], i+1, h => by simp [everyOther] at h
  | a :: b :: rest, 0, h => by simp [everyOther]
  | a :: b :: rest, i+1, h => by
    have hlen : i < (everyOther rest).length := by
      simpa [everyOther] using h
    have ih := everyOther_getD rest i hlen
    rw [show everyOther (a :: b :: rest) = a :: everyOther rest from rfl,
      List.getD_cons_succ, ih]
    have e1 : 2 * (i + 1) = 2 * i + 1 + 1 := by omega
    rw [e1]
    simp only [List.getD_cons_succ]

theorem getD_tail (xs : List ℚ) (n : ℕ) :
    xs.tail.getD n 0 = xs.getD (n+1) 0 := by
  cases xs with
  | nil => simp
  | cons a t => simp [List.getD_cons_succ]

/-- Inversion of `_read_wav` on a 2-byte-width file that returned
successfully. -/
theorem readWav_pcm16_ok (w : WavFile) (sr ch : ℕ) (l : List ℚ)
    (r : Option (List ℚ)) (hw : w.sampwidth = 2)
    (hok : readWav w = .ok (sr, ch, l, r)) :
    sr = w.framerate ∧ w.comptype = "NONE" ∧ w.raw.length % 2 = 0 ∧
    ((w.nchannels = 1 ∧ ch = 1 ∧ l = decode16 w.raw ∧ r = none) ∨
     (w.nchannels = 2 ∧ ch = 2 ∧ l = everyOther (decode16 w.raw) ∧
       r = some (everyOther (decode16 w.raw).tail))) := by
  by_cases hcomp : w.comptype = "NONE"
  · by_cases h1 : w.nchannels = 1
    · by_cases hpar : w.raw.length % 2 = 0
      · simp [readWav, hcomp, hpar, hw, h1, bind, Except.bind, pure,
          Except.pure] at hok
        obtain ⟨e1, e2, e3, e4⟩ := hok
        exact ⟨e1.symm, hcomp, hpar, Or.inl ⟨h1, e2.symm, e3.symm, e4.symm⟩⟩
      · simp [readWav, hcomp, hpar, hw, h1, bind, Except.bind, pure,
          Except.pure] at hok
    · by_cases h2 : w.nchannels = 2
      · by_cases hpar : w.raw.length % 2 = 0
        · simp [readWav, hcomp, hpar, hw, h1, h2, bind, Except.bind, pure,
            Except.pure] at hok
          obtain ⟨e1, e2, e3, e4⟩ := hok
          exact ⟨e1.symm, hcomp, hpar, Or.inr ⟨h2, e2.symm, e3.symm, e4.symm⟩⟩
        · simp [readWav, hcomp, hpar, hw, h1, h2, bind, Except.bind, pure,
            Except.pure] at hok
      · simp [readWav, hcomp, h1, h2, bind, Except.bind, pure,
          Except.pure] at hok
  · simp [readWav, hcomp, bind, Except.bind, pure, Except.pure] at hok

/-- C3: for a mono PCM16 WAV (2-byte sample width) that `_read_wav` decodes
successfully, each decoded sample equals the raw signed little-endian 16-bit
integer divided by 32768, clamped to `[-1, 1]`. -/
theorem readWav_pcm16_mono_spec (w : WavFile) (sr ch : ℕ) (l : List ℚ)
    (r : Option (List ℚ)) (hw : w.sampwidth = 2) (hch : w.nchannels = 1)
    (hok : readWav w = .ok (sr, ch, l, r)) :
    l.length = w.raw.length / 2 ∧
    ∀ i, i < l.length → l.getD i 0 =
      clamp1 ((toInt16 (w.raw.getD (2*i) 0 + 256 * w.raw.getD (2*i+1) 0) : ℚ)
        / 32768) := by
  obtain ⟨_, _, hpar, hcase⟩ := readWav_pcm16_ok w sr ch l r hw hok
  rcases hcase with ⟨_, _, hl, _⟩ | ⟨h2, _, _, _⟩
  · subst hl
    exact ⟨decode16_length _, fun i hi => decode16_getD _ i hi⟩
  · rw [hch] at h2
    exact absurd h2 (by decide)

theorem readWav_pcm16_mono_witness :
    ([(1:ℚ)/2].length = ([0, 64] : List ℕ).length / 2 ∧
     ∀ i, i < [(1:ℚ)/2].length → [(1:ℚ)/2].getD i 0 =
       clamp1 ((toInt16 (([0, 64] : List ℕ).getD (2*i) 0 +
         256 * ([0, 64] : List ℕ).getD (2*i+1) 0) : ℚ) / 32768)) :=
  readWav_pcm16_mono_spec ⟨1, 44100, 2, "NONE", [0, 64]⟩ 44100 1 [1/2] none
    rfl rfl
    (by norm_num [readWav, decode16, unpack16, toInt16, clamp1, min_def,
      max_def, bind, Except.bind, pure, Except.pure])

/-- C9 as stated is false of the code: `_read_wav` divides 16-bit samples by
32768, not by the maximum positive value 32767.  At raw sample 32767 the
decoded value is `32767/32768`, which differs from
`clamp(32767/32767) = 1`. -/
theorem pcm16_divisor_counterexample :
    readWav ⟨1, 44100, 2, "NONE", [255, 127]⟩ =
      .ok (44100, 1, [32767/32768], none) ∧
    ¬ ((32767 : ℚ)/32768 =
        clamp1 ((toInt16 (255 + 256 * 127) : ℚ) / 32767)) := by
  constructor
  · norm_num [readWav, decode16, unpack16, toInt16, clamp1, min_def, max_def,
      bind, Except.bind, pure, Except.pure]
  · norm_num [toInt16, clamp1, min_def, max_def]

/-- C9 amended: for 2-byte integer PCM input, each decoded sample (on either
channel) equals the raw signed 16-bit integer divided by 32768 (the magnitude
of the most negative value, not the maximum positive value 32767), clamped to
`[-1, 1]`; stereo frames are de-interleaved as left = even sample positions,
right = odd. -/
theorem readWav_pcm16_amended (w : WavFile) (sr ch : ℕ) (l : List ℚ)
    (r : Option (List ℚ)) (hw : w.sampwidth = 2)
    (hok : readWav w = .ok (sr, ch, l, r)) :
    (w.nchannels = 1 → ∀ i, i < l.length → l.getD i 0 =
      clamp1 ((toInt16 (w.raw.getD (2*i) 0 + 256 * w.raw.getD (2*i+1) 0) : ℚ)
        / 32768)) ∧
    (w.nchannels = 2 →
      (∀ i, i < l.length → l.getD i 0 =
        clamp1 ((toInt16 (w.raw.getD (4*i) 0 + 256 * w.raw.getD (4*i+1) 0) : ℚ)
          / 32768)) ∧
      (∀ rr, r = some rr → ∀ i, i < rr.length → rr.getD i 0 =
        clamp1 ((toInt16 (w.raw.getD (4*i+2) 0 +
          256 * w.raw.getD (4*i+3) 0) : ℚ) / 32768))) := by
  obtain ⟨_, _, hpar, hcase⟩ := readWav_pcm16_ok w sr ch l r hw hok
  constructor
  · intro h1
    rcases hcase with ⟨_, _, hl, _⟩ | ⟨h2, _, _, _⟩
    · subst hl
      exact fun i hi => decode16_getD _ i hi
    · rw [h1] at h2
      exact absurd h2 (by decide)
  · intro hch2
    rcases hcase with ⟨h1, _, _, _⟩ | ⟨_, _, hl, hr⟩
    · rw [hch2] at h1
      exact absurd h1 (by decide)
    · subst hl
      constructor
      · intro i hi
        have hlen := everyOther_length (decode16 w.raw)
        have h2i : 2*i < (decode16 w.raw).length := by
          rw [hlen] at hi
          omega
        rw [everyOther_getD _ i hi, decode16_getD _ (2*i) h2i]
        have e1 : 2*(2*i) = 4*i := by ring
        rw [e1]
      · intro rr hrr i hi
        rw [hr] at hrr
        have hrr2 : rr = everyOther (decode16 w.raw).tail := by
          injection hrr with h
          exact h.symm
        subst hrr2
        have hlen := everyOther_length (decode16 w.raw).tail
        have htl : (decode16 w.raw).tail.length = (decode16 w.raw).length - 1 :=
          List.length_tail _
        have h2i : 2*i+1 < (decode16 w.raw).length := by
          rw [hlen, htl] at hi
          omega
        have h2i' : 2*i < (decode16 w.raw).tail.length := by
          rw [htl]
          omega
        rw [everyOther_getD _ i hi, getD_tail, decode16_getD _ (2*i+1) h2i]
        have e1 : 2*(2*i+1) = 4*i+2 := by ring
        rw [e1]

theorem readWav_pcm16_amended_witness :
    ((2 : ℕ) = 1 → ∀ i, i < [(1:ℚ)/2].length → [(1:ℚ)/2].getD i 0 =
      clamp1 ((toInt16 (([0, 64, 0, 32] : List ℕ).getD (2*i) 0 +
        256 * ([0, 64, 0, 32] : List ℕ).getD (2*i+1) 0) : ℚ) / 32768)) ∧
    ((2 : ℕ) = 2 →
      (∀ i, i < [(1:ℚ)/2].length → [(1:ℚ)/2].getD i 0 =
        clamp1 ((toInt16 (([0, 64, 0, 32] : List ℕ).getD (4*i) 0 +
          256 * ([0, 64, 0, 32] : List ℕ).getD (4*i+1) 0) : ℚ) / 32768)) ∧
      (∀ rr, (some [(1:ℚ)/4] : Option (List ℚ)) = some rr →
        ∀ i, i < rr.length → rr.getD i 0 =
          clamp1 ((toInt16 (([0, 64, 0, 32] : List ℕ).getD (4*i+2) 0 +
            256 * ([0, 64, 0, 32] : List ℕ).getD (4*i+3) 0) : ℚ) / 32768))) := by
  exact readWav_pcm16_amended ⟨2, 8000, 2, "NONE", [0, 64, 0, 32]⟩
    8000 2 [1/2] (some [1/4]) rfl
    (by norm_num [readWav, decode16, unpack16, toInt16, clamp1, min_def,
      max_def, everyOther, bind, Except.bind, pure, Except.pure])

/-! ### Range invariants (C4) -/

theorem clamp1_bounds (v : ℚ) : -1 ≤ clamp1 v ∧ clamp1 v ≤ 1 := by
  unfold clamp1
  constructor
  · exact le_max_left _ _
  · apply max_le
    · norm_num
    · exact min_le_left _ _

theorem everyOther_subset : ∀ (xs : List ℚ) (v : ℚ), v ∈ everyOther xs → v ∈ xs
  | [], v, h => by simp [everyOther] at h
  | [a], v, h => by simpa [everyOther] using h
  | a :: b :: rest, v, h => by
    rw [show everyOther (a :: b :: rest) = a :: everyOther rest from rfl] at h
    rcases List.mem_cons.mp h with h | h
    · simp [h]
    · have := everyOther_subset rest v h
      simp [this]

/-- Every sample list `_read_wav` can return consists of clamped values. -/
theorem readWav_ok_samples (w : WavFile) (sr ch : ℕ) (l : List ℚ)
    (r : Option (List ℚ)) (hok : readWav w = .ok (sr, ch, l, r)) :
    ∃ samples : List ℚ, (∀ v ∈ samples, -1 ≤ v ∧ v ≤ 1) ∧
      ((l = samples ∧ r = none) ∨
       (l = everyOther samples ∧ r = some (everyOther samples.tail))) := by
  have hb16 : ∀ v ∈ decode16 w.raw, -1 ≤ v ∧ v ≤ 1 := by
    intro v hv
    obtain ⟨x, _, hx⟩ := List.mem_map.mp hv
    rw [← hx]
    exact clamp1_bounds _
  by_cases hcomp : w.comptype = "NONE"
  · by_cases h1 : w.nchannels = 1
    · by_cases hw2 : w.sampwidth = 2
      · by_cases hpar : w.raw.length % 2 = 0
        · simp [readWav, hcomp, h1, hw2, hpar, bind, Except.bind, pure,
            Except.pure] at hok
          exact ⟨decode16 w.raw, hb16, Or.inl ⟨hok.2.2.1.symm, hok.2.2.2.symm⟩⟩
        · simp [readWav, hcomp, h1, hw2, hpar, bind, Except.bind, pure,
            Except.pure] at hok
      · by_cases hw4 : w.sampwidth = 4
        · by_cases hpar : w.raw.length % 4 = 0
          · cases hfu : unpackF32 w.raw with
            | none =>
              simp [readWav, hcomp, h1, hw2, hw4, hpar, hfu, bind,
                Except.bind, pure, Except.pure] at hok
            | some vs =>
              simp [readWav, hcomp, h1, hw2, hw4, hpar, hfu, bind,
                Except.bind, pure, Except.pure] at hok
              refine ⟨vs.map clamp1, ?_, Or.inl ⟨hok.2.2.1.symm, hok.2.2.2.symm⟩⟩
              intro v hv
              obtain ⟨x, _, hx⟩ := List.mem_map.mp hv
              rw [← hx]
              exact clamp1_bounds _
          · simp [readWav, hcomp, h1, hw2, hw4, hpar, bind, Except.bind,
              pure, Except.pure] at hok
        · simp [readWav, hcomp, h1, hw2, hw4, bind, Except.bind, pure,
            Except.pure] at hok
    · by_cases h2 : w.nchannels = 2
      · by_cases hw2 : w.sampwidth = 2
        · by_cases hpar : w.raw.length % 2 = 0
          · simp [readWav, hcomp, h1, h2, hw2, hpar, bind, Except.bind,
              pure, Except.pure] at hok
            exact ⟨decode16 w.raw, hb16,
              Or.inr ⟨hok.2.2.1.symm, hok.2.2.2.symm⟩⟩
          · simp [readWav, hcomp, h1, h2, hw2, hpar, bind, Except.bind,
              pure, Except.pure] at hok
        · by_cases hw4 : w.sampwidth = 4
          · by_cases hpar : w.raw.length % 4 = 0
            · cases hfu : unpackF32 w.raw with
              | none =>
                simp [readWav, hcomp, h1, h2, hw2, hw4, hpar, hfu, bind,
                  Except.bind, pure, Except.pure] at hok
              | some vs =>
                simp [readWav, hcomp, h1, h2, hw2, hw4, hpar, hfu, bind,
                  Except.bind, pure, Except.pure] at hok
                refine ⟨vs.map clamp1, ?_,
                  Or.inr ⟨hok.2.2.1.symm, hok.2.2.2.symm⟩⟩
                intro v hv
                obtain ⟨x, _, hx⟩ := List.mem_map.mp hv
                rw [← hx]
                exact clamp1_bounds _
            · simp [readWav, hcomp, h1, h2, hw2, hw4, hpar, bind,
                Except.bind, pure, Except.pure] at hok
          · simp [readWav, hcomp, h1, h2, hw2, hw4, bind, Except.bind,
              pure, Except.pure] at hok
      · simp [readWav, hcomp, h1, h2, bind, Except.bind, pure,
          Except.pure] at hok
  · simp [readWav, hcomp, bind, Except.bind, pure, Except.pure] at hok

theorem normalizePeak_bounds (l : List ℚ) (r : Option (List ℚ))
    (hl : ∀ v ∈ l, -1 ≤ v ∧ v ≤ 1)
    (hr : ∀ rr, r = some rr → ∀ v ∈ rr, -1 ≤ v ∧ v ≤ 1) :
    (∀ v ∈ (normalizePeak l r (95/100)).1, -1 ≤ v ∧ v ≤ 1) ∧
    (∀ rr, (normalizePeak l r (95/100)).2 = some rr →
      ∀ v ∈ rr, -1 ≤ v ∧ v ≤ 1) := by
  by_cases h : globalPeak l r < 1/10^12
  · have e : normalizePeak l r (95/100) = (l, r) := by
      simp only [normalizePeak]
      rw [if_pos h]
    rw [e]
    exact ⟨hl, hr⟩
  · have hpk : (0:ℚ) < globalPeak l r := by
      have := globalPeak_nonneg l r
      rcases lt_or_eq_of_le this with hlt | heq
      · exact hlt
      · exfalso
        apply h
        rw [← heq]
        norm_num
    have hne : globalPeak l r ≠ 0 := ne_of_gt hpk
    have hc : 0 ≤ 95/100 / globalPeak l r := by positivity
    have key : ∀ x : ℚ, |x| ≤ globalPeak l r →
        -1 ≤ x * (95/100 / globalPeak l r) ∧ x * (95/100 / globalPeak l r) ≤ 1 := by
      intro x hx
      have habs : |x * (95/100 / globalPeak l r)| ≤ 95/100 := by
        rw [abs_mul, abs_of_nonneg hc]
        calc |x| * (95/100 / globalPeak l r)
            ≤ globalPeak l r * (95/100 / globalPeak l r) := by
              apply mul_le_mul_of_nonneg_right hx hc
          _ = 95/100 := by
              rw [mul_comm]
              exact div_mul_cancel₀ _ hne
      have := abs_le.mp (le_trans habs (by norm_num : (95:ℚ)/100 ≤ 1))
      exact this
    have e1 : (normalizePeak l r (95/100)).1 =
        l.map (· * (95/100 / globalPeak l r)) := by
      simp only [normalizePeak]
      rw [if_neg h]
    have e2 : (normalizePeak l r (95/100)).2 =
        r.map (fun rr => rr.map (· * (95/100 / globalPeak l r))) := by
      simp only [normalizePeak]
      rw [if_neg h]
    constructor
    · rw [e1]
      intro v hv
      obtain ⟨x, hx, he⟩ := List.mem_map.mp hv
      rw [← he]
      exact key x (abs_le_globalPeak_left l r x hx)
    · rw [e2]
      intro rr2 hrr2 v hv
      cases hr0 : r with
      | none => rw [hr0] at hrr2; simp at hrr2
      | some rr =>
        rw [hr0] at hrr2
        simp only [Option.map_some'] at hrr2
        injection hrr2 with hrr2
        rw [← hrr2] at hv
        obtain ⟨x, hx, he⟩ := List.mem_map.mp hv
        rw [← he, ← hr0]
        apply key x
        rw [hr0]
        exact abs_le_globalPeak_right l rr x hx

theorem buildPreview_mem (samples : List ℚ) (m : ℤ) (out : List ℚ)
    (hout : buildPreview samples m = some out) (P : ℚ → Prop)
    (hP : ∀ v ∈ samples, P v) (h0 : P 0) : ∀ v ∈ out, P v := by
  unfold buildPreview at hout
  split at hout
  · injection hout with h
    subst h
    intro v hv
    exact absurd hv (List.not_mem_nil v)
  · split at hout
    · injection hout with h
      subst h
      exact hP
    · split at hout
      · cases hout
      · injection hout with h
        subst h
        intro v hv
        obtain ⟨i, _, hi⟩ := List.mem_map.mp hv
        rw [← hi]
        by_cases hidx : (max 0 (min ((samples.length : ℤ) - 1)
            (roundHE ((i : ℚ) *
              (((samples.length : ℚ) - 1) / ((m : ℚ) - 1)))))).toNat <
            samples.length
        · rw [List.getD_eq_getElem _ _ hidx]
          exact hP _ (List.getElem_mem _)
        · rw [List.getD_eq_default _ _ (by omega)]
          exact h0

theorem zipWith_avg_bounds : ∀ (l r : List ℚ),
    (∀ v ∈ l, -1 ≤ v ∧ v ≤ 1) → (∀ v ∈ r, -1 ≤ v ∧ v ≤ 1) →
    ∀ v ∈ List.zipWith (fun a b => (a + b) * (1/2)) l r, -1 ≤ v ∧ v ≤ 1
  | [], r, _, _ => by simp
  | a :: t, [], _, _ => by simp
  | a :: t, b :: tr, hl, hr => by
    intro v hv
    rcases List.mem_cons.mp hv with h | h
    · subst h
      have ha := hl a (by simp)
      have hb := hr b (by simp)
      constructor <;> nlinarith [ha.1, ha.2, hb.1, hb.2]
    · exact zipWith_avg_bounds t tr (fun x hx => hl x (by simp [hx]))
        (fun x hx => hr x (by simp [hx])) v h

/-- C4: every successfully constructed IR item has all its left/mono
samples, right samples (when present) and preview values inside
`[-1.0, 1.0]`. -/
theorem processFile_bounds (p : ℤ) (stem : String) (w : WavFile) (it : IrItem)
    (hok : processFile p stem w = .ok it) :
    (∀ v ∈ it.samples_l, -1 ≤ v ∧ v ≤ 1) ∧
    (∀ rr, it.samples_r = some rr → ∀ v ∈ rr, -1 ≤ v ∧ v ≤ 1) ∧
    (∀ v ∈ it.preview, -1 ≤ v ∧ v ≤ 1) := by
  cases hread : readWav w with
  | error e =>
    simp [processFile, hread, bind, Except.bind, pure, Except.pure] at hok
  | ok res =>
    obtain ⟨sr, ch, l0, r0⟩ := res
    obtain ⟨samples, hsb, hshape⟩ := readWav_ok_samples w sr ch l0 r0 hread
    have hl0 : ∀ v ∈ l0, -1 ≤ v ∧ v ≤ 1 := by
      rcases hshape with ⟨hl, _⟩ | ⟨hl, _⟩
      · rw [hl]; exact hsb
      · rw [hl]
        intro v hv
        exact hsb v (everyOther_subset _ v hv)
    have hr0 : ∀ rr, r0 = some rr → ∀ v ∈ rr, -1 ≤ v ∧ v ≤ 1 := by
      rcases hshape with ⟨_, hrn⟩ | ⟨_, hrs⟩
      · intro rr hrr; rw [hrn] at hrr; cases hrr
      · intro rr hrr
        rw [hrs] at hrr
        injection hrr with hrr
        rw [← hrr]
        intro v hv
        exact hsb v (List.mem_of_mem_tail (everyOther_subset _ v hv))
    simp only [processFile, hread, bind, Except.bind] at hok
    split at hok
    · cases hok
    · obtain ⟨hnb1, hnb2⟩ := normalizePeak_bounds l0 r0 hl0 hr0
      set lr := normalizePeak l0 r0 (95/100) with hlr
      cases hbp : buildPreview (previewSource ch lr.1 lr.2) p with
      | none => rw [hbp] at hok; cases hok
      | some pv =>
        rw [hbp] at hok
        simp only [pure, Except.pure] at hok
        injection hok with hok
        subst hok
        have hpsrc : ∀ v ∈ previewSource ch lr.1 lr.2, -1 ≤ v ∧ v ≤ 1 := by
          unfold previewSource
          cases hr2 : lr.2 with
          | none => exact hnb1
          | some rr =>
            show ∀ v ∈ (if ch = 1 then lr.1
              else List.zipWith (fun a b => (a + b) * (1/2)) lr.1 rr),
              -1 ≤ v ∧ v ≤ 1
            by_cases hch : ch = 1
            · rw [if_pos hch]
              exact hnb1
            · rw [if_neg hch]
              exact zipWith_avg_bounds lr.1 rr hnb1 (hnb2 rr hr2)
        refine ⟨hnb1, ?_, ?_⟩
        · intro rr hrr
          exact hnb2 rr hrr
        · exact buildPreview_mem _ p pv hbp _ hpsrc (by norm_num)

theorem processFile_bounds_witness :
    (∀ v ∈ [(19:ℚ)/20], -1 ≤ v ∧ v ≤ 1) ∧
    (∀ rr, (none : Option (List ℚ)) = some rr → ∀ v ∈ rr, -1 ≤ v ∧ v ≤ 1) ∧
    (∀ v ∈ [(19:ℚ)/20], -1 ≤ v ∧ v ≤ 1) :=
  processFile_bounds 512 "a" ⟨1, 48000, 2, "NONE", [0, 64]⟩
    ⟨"a", "A", 48000, 1, [19/20], none, [19/20]⟩
    (by
      norm_num [processFile, readWav, decode16, unpack16, toInt16, clamp1,
        min_def, max_def, bind, Except.bind, pure, Except.pure, normalizePeak,
        globalPeak, peakFold, buildPreview, previewSource, titleFromId,
        pyStrip, isPySpace, collapseSeps, collapseSepsAux, isSep, splitOnSpace,
        capitalizeWord, List.intercalate, abs, List.singleton, Function.comp,
        List.foldl_cons, List.foldl_nil, List.map_cons, List.map_nil,
        List.dropWhile, List.reverse]
      decide)

/-! ### Duplicate identifiers (C6) -/

theorem runBatchAux_dup (p : ℤ) :
    ∀ (files : List (String × WavFile)) (seen : List String),
      (∀ f ∈ files, ∃ it, processFile p f.1 f.2 = .ok it) →
      ¬ (seen ++ files.map Prod.fst).Nodup →
      seen.Nodup →
      ∃ id, runBatchAux p seen files = .error (dupMsg id) ∧
        ((id ∈ seen ∧ id ∈ files.map Prod.fst) ∨
          2 ≤ (files.map Prod.fst).count id)
  | [], seen, _, hnd, hseen => by
    simp only [List.map_nil, List.append_nil] at hnd
    exact absurd hseen hnd
  | (stem, w) :: rest, seen, hproc, hnd, hseen => by
    by_cases hmem : stem ∈ seen
    · refine ⟨stem, ?_, Or.inl ⟨hmem, by simp⟩⟩
      simp [runBatchAux, hmem]
    · obtain ⟨it, hit⟩ := hproc (stem, w) (by simp)
      have hnd' : ¬ ((stem :: seen) ++ rest.map Prod.fst).Nodup := by
        intro hcontra
        apply hnd
        have hperm : (seen ++ stem :: rest.map Prod.fst).Perm
            (stem :: (seen ++ rest.map Prod.fst)) := List.perm_middle
        rw [List.map_cons]
        exact hperm.nodup_iff.mpr (by simpa using hcontra)
      have hseen' : (stem :: seen).Nodup := List.nodup_cons.mpr ⟨hmem, hseen⟩
      obtain ⟨id, herr, hcase⟩ := runBatchAux_dup p rest (stem :: seen)
        (fun f hf => hproc f (by simp [hf])) hnd' hseen'
      refine ⟨id, ?_, ?_⟩
      · simp [runBatchAux, hmem, hit, herr, bind, Except.bind]
      · rcases hcase with ⟨hin_seen, hin_rest⟩ | hcnt
        · rcases List.mem_cons.mp hin_seen with heq | hin
          · subst heq
            right
            rw [List.map_cons, List.count_cons_self]
            have hpos : 0 < (rest.map Prod.fst).count id :=
              List.count_pos_iff.mpr hin_rest
            omega
          · left
            exact ⟨hin, by simp [hin_rest]⟩
        · right
          rw [List.map_cons, List.count_cons]
          split <;> omega

/-- C6 amended: when every input file decodes and processes successfully,
an input set in which two files derive the same identifier (file-name stem)
makes the run fail with the fatal duplicate-identifier error naming a
duplicated identifier, and no output text is produced.  (As literally
stated — "regardless of the files' contents" — the claim is false: a file
earlier in the processing order whose contents fail to decode aborts the run
with a different error first; see the counterexample.) -/
theorem dupIdentifier_spec (p : ℤ) (files : List (String × WavFile))
    (hproc : ∀ f ∈ files, ∃ it, processFile p f.1 f.2 = .ok it)
    (hdup : ¬ (files.map Prod.fst).Nodup) :
    ∃ id, mainRun p files = .error (dupMsg id) ∧
      2 ≤ (files.map Prod.fst).count id := by
  have hne : ¬ (files = []) := by
    intro he
    subst he
    simp at hdup
  obtain ⟨id, herr, hcase⟩ := runBatchAux_dup p files [] hproc
    (by simpa using hdup) List.nodup_nil
  refine ⟨id, ?_, ?_⟩
  · simp [mainRun, hne, runBatch, herr, bind, Except.bind]
  · rcases hcase with ⟨hin, _⟩ | h
    · exact absurd hin (List.not_mem_nil id)
    · exact h

theorem dupIdentifier_spec_witness :
    ∃ id, mainRun 512 [("a", ⟨1, 48000, 2, "NONE", [0, 64]⟩),
                       ("a", ⟨1, 48000, 2, "NONE", [0, 64]⟩)] =
        .error (dupMsg id) ∧
      2 ≤ (([("a", (⟨1, 48000, 2, "NONE", [0, 64]⟩ : WavFile)),
             ("a", ⟨1, 48000, 2, "NONE", [0, 64]⟩)]).map Prod.fst).count id :=
  dupIdentifier_spec 512 _
    (by
      intro f hf
      have hf2 : f = ("a", (⟨1, 48000, 2, "NONE", [0, 64]⟩ : WavFile)) := by
        rcases List.mem_cons.mp hf with h | h
        · exact h
        · simpa using h
      subst hf2
      refine ⟨⟨"a", "A", 48000, 1, [19/20], none, [19/20]⟩, ?_⟩
      norm_num [processFile, readWav, decode16, unpack16, toInt16, clamp1,
        min_def, max_def, bind, Except.bind, pure, Except.pure, normalizePeak,
        globalPeak, peakFold, buildPreview, previewSource, titleFromId,
        pyStrip, isPySpace, collapseSeps, collapseSepsAux, isSep, splitOnSpace,
        capitalizeWord, List.intercalate, abs, List.singleton, Function.comp,
        List.foldl_cons, List.foldl_nil, List.map_cons, List.map_nil,
        List.dropWhile, List.reverse]
      decide)
    (by decide)

/-- C6 as stated is false of the code: two files both deriving the
identifier "a", where the first in processing order has an unsupported
sample width (3 bytes), abort the run with the unsupported-sample-width
error — not with the duplicate-identifier error — because each file is
decoded before the next file's duplicate check runs. -/
theorem dup_not_always_dupError :
    mainRun 512 [("a", ⟨1, 48000, 3, "NONE", [0, 64]⟩),
                 ("a", ⟨1, 48000, 2, "NONE", [0, 64]⟩)] =
      .error "unsupported sample width 3" ∧
    "unsupported sample width 3" ≠ dupMsg "a" := by
  constructor
  · simp [mainRun, runBatch, runBatchAux, processFile, readWav, bind,
      Except.bind, pure, Except.pure]
    decide
  · decide

/-! ### The `.7g` formatter shows at most 7 significant digits (C8) -/

theorem roundHE_le_floor_add_one (q : ℚ) : roundHE q ≤ ⌊q⌋ + 1 := by
  simp only [roundHE]
  split
  · omega
  · split
    · omega
    · split <;> omega

theorem log10fuel_spec : ∀ (fuel n : ℕ), n ≤ fuel → 1 ≤ n →
    10 ^ (log10fuel fuel n) ≤ n ∧ n < 10 ^ (log10fuel fuel n + 1)
  | 0, n, hf, h1 => by omega
  | fuel + 1, n, hf, h1 => by
    by_cases h : n < 10
    · simp [log10fuel, h]
      omega
    · have h10 : 10 ≤ n := by omega
      have hrec := log10fuel_spec fuel (n / 10) (by omega) (by omega)
      rw [show log10fuel (fuel + 1) n = log10fuel fuel (n / 10) + 1 by
        simp [log10fuel, h]]
      set k := log10fuel fuel (n / 10) with hk
      constructor
      · calc 10 ^ (k + 1) = 10 ^ k * 10 := by ring
          _ ≤ (n / 10) * 10 := Nat.mul_le_mul_right 10 hrec.1
          _ ≤ n := Nat.div_mul_le_self n 10
      · have hlt : n < (n / 10 + 1) * 10 := by omega
        calc n < (n / 10 + 1) * 10 := hlt
          _ ≤ 10 ^ (k + 1) * 10 := Nat.mul_le_mul_right 10 (by omega)
          _ = 10 ^ (k + 1 + 1) := by ring

theorem log10nat_spec (n : ℕ) (h1 : 1 ≤ n) :
    10 ^ (log10nat n) ≤ n ∧ n < 10 ^ (log10nat n + 1) :=
  log10fuel_spec n n le_rfl h1

theorem digitsFuel_zero : ∀ fuel, digitsFuel fuel 0 = []
  | 0 => rfl
  | fuel + 1 => by simp [digitsFuel]

theorem digitsFuel_length : ∀ (fuel n k : ℕ), n ≤ fuel → n < 10 ^ k →
    (digitsFuel fuel n).length ≤ k
  | 0, n, k, _, _ => by simp [digitsFuel]
  | fuel + 1, n, k, hf, hk => by
    by_cases h0 : n = 0
    · simp [digitsFuel, h0]
    · rw [show digitsFuel (fuel + 1) n = n % 10 :: digitsFuel fuel (n / 10) by
        simp [digitsFuel, h0]]
      cases k with
      | zero =>
        exfalso
        have : n < 1 := by simpa using hk
        omega
      | succ k2 =>
        have hlt : n / 10 < 10 ^ k2 := by
          have h2 : n < 10 ^ k2 * 10 := by
            calc n < 10 ^ (k2 + 1) := hk
              _ = 10 ^ k2 * 10 := by ring
          omega
        have := digitsFuel_length fuel (n / 10) k2 (by omega) hlt
        simp only [List.length_cons]
        omega

theorem digitsFuel_mem_lt : ∀ (fuel n : ℕ) (d : ℕ), d ∈ digitsFuel fuel n → d < 10
  | 0, n, d, h => by simp [digitsFuel] at h
  | fuel + 1, n, d, h => by
    by_cases h0 : n = 0
    · simp [digitsFuel, h0] at h
    · rw [show digitsFuel (fuel + 1) n = n % 10 :: digitsFuel fuel (n / 10) by
        simp [digitsFuel, h0]] at h
      rcases List.mem_cons.mp h with h | h
      · omega
      · exact digitsFuel_mem_lt fuel (n / 10) d h

theorem digits10_length_le (m : ℕ) (h : m < 10 ^ 7) :
    (digits10 m).length ≤ 7 :=
  digitsFuel_length m m 7 le_rfl h

theorem digits10_mem_lt (m d : ℕ) (h : d ∈ digits10 m) : d < 10 :=
  digitsFuel_mem_lt m m d h

theorem pow_cast_q (k : ℕ) : ((10 ^ k : ℕ) : ℚ) = (10 : ℚ) ^ (k : ℤ) := by
  rw [zpow_natCast]
  push_cast
  ring

/-- Upper half of `log10floor`'s defining property: `a < 10 ^ (e + 1)`. -/
theorem log10floor_upper (a : ℚ) (ha : 0 < a) :
    a < (10 : ℚ) ^ (log10floor a + 1) := by
  unfold log10floor
  by_cases h1 : 1 ≤ a
  · rw [if_pos h1]
    set n := ⌊a⌋.toNat with hn
    have hfl : 1 ≤ ⌊a⌋ := Int.le_floor.mpr (by exact_mod_cast h1)
    have hn1 : 1 ≤ n := by omega
    have hup := (log10nat_spec n hn1).2
    have hcast : (⌊a⌋ : ℚ) = (n : ℚ) := by
      rw [hn]
      exact_mod_cast (Int.toNat_of_nonneg (by omega : (0:ℤ) ≤ ⌊a⌋)).symm
    calc a < ⌊a⌋ + 1 := Int.lt_floor_add_one a
      _ = (n : ℚ) + 1 := by rw [hcast]
      _ ≤ ((10 ^ (log10nat n + 1) : ℕ) : ℚ) := by exact_mod_cast hup
      _ = (10 : ℚ) ^ ((log10nat n : ℤ) + 1) := by
          rw [pow_cast_q]
          push_cast
          ring_nf
  · rw [if_neg h1]
    push_neg at h1
    have hb : 1 < a⁻¹ := (one_lt_inv₀ ha).mpr h1
    set m := ⌊a⁻¹⌋.toNat with hm
    have hfl : 1 ≤ ⌊a⁻¹⌋ := Int.le_floor.mpr (by exact_mod_cast hb.le)
    have hm1 : 1 ≤ m := by omega
    set k := log10nat m with hk
    have hlow := (log10nat_spec m hm1).1
    have hmb : ((m : ℕ) : ℚ) ≤ a⁻¹ := by
      calc ((m : ℕ) : ℚ) = ((⌊a⁻¹⌋ : ℤ) : ℚ) := by
            rw [hm]
            exact_mod_cast Int.toNat_of_nonneg (by omega : (0:ℤ) ≤ ⌊a⁻¹⌋)
        _ ≤ a⁻¹ := Int.floor_le a⁻¹
    have hpk : ((10 ^ k : ℕ) : ℚ) ≤ a⁻¹ := le_trans (by exact_mod_cast hlow) hmb
    have hak : a ≤ ((10 ^ k : ℕ) : ℚ)⁻¹ := by
      rw [← inv_inv a]
      exact inv_anti₀ (by positivity) hpk
    by_cases hc : 1 ≤ a * 10 ^ k
    · rw [if_pos hc]
      have hklt : ((10 ^ k : ℕ) : ℚ)⁻¹ < (10 : ℚ) ^ (-(k : ℤ) + 1) := by
        rw [pow_cast_q, ← zpow_neg]
        exact zpow_lt_zpow_right₀ (by norm_num) (by omega)
      exact lt_of_le_of_lt hak hklt
    · rw [if_neg hc]
      push_neg at hc
      have h10k : (0 : ℚ) < 10 ^ k := by positivity
      have : a < 1 / 10 ^ k := by
        rw [lt_div_iff₀ h10k]
        exact hc
      calc a < 1 / 10 ^ k := this
        _ = (10 : ℚ) ^ (-(k : ℤ) - 1 + 1) := by
            rw [show -(k : ℤ) - 1 + 1 = -(k : ℤ) by ring, zpow_neg,
              one_div, zpow_natCast]

/-- The significand `sig7` produces is below `10^7` (so it has at most 7
decimal digits). -/
theorem sig7_lt (a : ℚ) (ha : 0 < a) : (sig7 a).1 < 10 ^ 7 := by
  have hqlt : a * (10 : ℚ) ^ ((6 : ℤ) - log10floor a) < 10 ^ 7 := by
    have hup := log10floor_upper a ha
    have hpow : (0 : ℚ) < (10 : ℚ) ^ ((6 : ℤ) - log10floor a) := by positivity
    calc a * (10 : ℚ) ^ ((6 : ℤ) - log10floor a)
        < (10 : ℚ) ^ (log10floor a + 1) *
            (10 : ℚ) ^ ((6 : ℤ) - log10floor a) := by
          exact mul_lt_mul_of_pos_right hup hpow
      _ = (10 : ℚ) ^ (log10floor a + 1 + (6 - log10floor a)) := by
          rw [← zpow_add₀ (by norm_num : (10:ℚ) ≠ 0)]
      _ = (10 : ℚ) ^ (7 : ℤ) := by ring_nf
      _ = 10 ^ 7 := by norm_num
  have hfl : ⌊a * (10 : ℚ) ^ ((6 : ℤ) - log10floor a)⌋ < 10 ^ 7 := by
    have := Int.floor_lt.mpr (show a * (10 : ℚ) ^ ((6 : ℤ) - log10floor a) <
      ((10 ^ 7 : ℤ) : ℚ) by exact_mod_cast hqlt)
    exact_mod_cast this
  have hrd : roundHE (a * (10 : ℚ) ^ ((6 : ℤ) - log10floor a)) ≤ 10 ^ 7 :=
    le_trans (roundHE_le_floor_add_one _) (by omega)
  have hm0 : (roundHE (a * (10 : ℚ) ^ ((6 : ℤ) - log10floor a))).toNat ≤ 10 ^ 7 := by
    omega
  simp only [sig7]
  split
  · show (10:ℕ) ^ 6 < 10 ^ 7
    norm_num
  · show (roundHE (a * (10 : ℚ) ^ ((6 : ℤ) - log10floor a))).toNat < 10 ^ 7
    omega

theorem sigDigits_length_le (m : ℕ) (h : m < 10 ^ 7) :
    (sigDigits m).length ≤ 7 := by
  unfold sigDigits
  rw [List.length_reverse]
  exact le_trans (List.dropWhile_sublist _).length_le (digits10_length_le m h)

theorem sigDigits_mem_lt (m d : ℕ) (h : d ∈ sigDigits m) : d < 10 := by
  unfold sigDigits at h
  rw [List.mem_reverse] at h
  exact digits10_mem_lt m d ((List.dropWhile_sublist _).subset h)

theorem digitChar_isDigit (d : ℕ) (h : d < 10) : (digitChar d).isDigit = true := by
  interval_cases d <;> decide

theorem digitChar_ne_e (d : ℕ) (h : d < 10) : digitChar d ≠ 'e' := by
  interval_cases d <;> decide

theorem isDigit_ne_e (c : Char) (h : c.isDigit = true) :
    (decide (c ≠ 'e')) = true := by
  simp only [decide_eq_true_eq]
  intro he
  subst he
  exact absurd h (by decide)

theorem takeWhile_append_all (p : Char → Bool) :
    ∀ (l1 l2 : List Char), (∀ c ∈ l1, p c = true) →
      List.takeWhile p (l1 ++ l2) = l1 ++ List.takeWhile p l2
  | [], l2, _ => by simp
  | c :: t, l2, h => by
    have hc : p c = true := h c (by simp)
    simp only [List.cons_append, List.takeWhile_cons, hc, if_true]
    rw [takeWhile_append_all p t l2 (fun x hx => h x (by simp [hx]))]

theorem takeWhile_all (p : Char → Bool) (l : List Char)
    (h : ∀ c ∈ l, p c = true) : List.takeWhile p l = l := by
  have h2 := takeWhile_append_all p l [] h
  simpa using h2

theorem dropWhile_append_all (p : Char → Bool) :
    ∀ (l1 l2 : List Char), (∀ c ∈ l1, p c = true) →
      List.dropWhile p (l1 ++ l2) = List.dropWhile p l2
  | [], l2, _ => by simp
  | c :: t, l2, h => by
    have hc : p c = true := h c (by simp)
    simp only [List.cons_append, List.dropWhile_cons, hc, if_true]
    exact dropWhile_append_all p t l2 (fun x hx => h x (by simp [hx]))

theorem sigCount_le_of_digits (s : List Char) (hne : ∀ c ∈ s, (decide (c ≠ 'e')) = true) :
    sigDigitCount s ≤ ((s.filter Char.isDigit)).length := by
  unfold sigDigitCount
  rw [takeWhile_all _ s hne]
  exact (List.dropWhile_sublist _).length_le

theorem sigCount_renderFixed (ds : List ℕ) (e : ℤ)
    (hlt : ∀ d ∈ ds, d < 10) (hlen : ds.length ≤ 7) (he2 : e < 7) :
    sigDigitCount (renderFixed (ds.map digitChar) e) ≤ 7 := by
  have hchd : ∀ c ∈ ds.map digitChar, c.isDigit = true := by
    intro c hc
    obtain ⟨d, hd, rfl⟩ := List.mem_map.mp hc
    exact digitChar_isDigit d (hlt d hd)
  simp only [renderFixed]
  by_cases he0 : 0 ≤ e
  · rw [if_pos he0]
    have hn7 : e.toNat + 1 ≤ 7 := by omega
    have hipd : ∀ c ∈ (ds.map digitChar).take (e.toNat + 1) ++
        List.replicate (e.toNat + 1 - (ds.map digitChar).length) '0',
        c.isDigit = true := by
      intro c hc
      rcases List.mem_append.mp hc with hc | hc
      · exact hchd c (List.take_subset _ _ hc)
      · rw [List.eq_of_mem_replicate hc]
        decide
    have hfpd : ∀ c ∈ (ds.map digitChar).drop (e.toNat + 1), c.isDigit = true :=
      fun c hc => hchd c (List.drop_subset _ _ hc)
    by_cases hfpe : (ds.map digitChar).drop (e.toNat + 1) = []
    · rw [if_pos hfpe]
      calc sigDigitCount _
          ≤ (List.filter Char.isDigit ((ds.map digitChar).take (e.toNat + 1) ++
              List.replicate (e.toNat + 1 - (ds.map digitChar).length) '0')).length :=
            sigCount_le_of_digits _ (fun c hc => isDigit_ne_e c (hipd c hc))
        _ ≤ 7 := by
            rw [List.filter_eq_self.mpr hipd]
            simp only [List.length_append, List.length_take, List.length_replicate,
              List.length_map]
            omega
    · rw [if_neg hfpe]
      have hall : ∀ c ∈ ((ds.map digitChar).take (e.toNat + 1) ++
          List.replicate (e.toNat + 1 - (ds.map digitChar).length) '0') ++
          '.' :: (ds.map digitChar).drop (e.toNat + 1),
          (decide (c ≠ 'e')) = true := by
        intro c hc
        rcases List.mem_append.mp hc with hc | hc
        · exact isDigit_ne_e c (hipd c hc)
        · rcases List.mem_cons.mp hc with hc | hc
          · subst hc; decide
          · exact isDigit_ne_e c (hfpd c hc)
      calc sigDigitCount _
          ≤ (List.filter Char.isDigit _).length := sigCount_le_of_digits _ hall
        _ ≤ 7 := by
            rw [List.filter_append, List.filter_eq_self.mpr hipd,
              show List.filter Char.isDigit
                  ('.' :: (ds.map digitChar).drop (e.toNat + 1)) =
                List.filter Char.isDigit ((ds.map digitChar).drop (e.toNat + 1))
                by rw [List.filter_cons]
                   simp [show ('.').isDigit = false from by decide],
              List.filter_eq_self.mpr hfpd]
            simp only [List.length_append, List.length_take, List.length_replicate,
              List.length_drop, List.length_map]
            omega
  · rw [if_neg he0]
    have hrepd : ∀ c ∈ List.replicate (-(e + 1)).toNat '0', c.isDigit = true := by
      intro c hc
      rw [List.eq_of_mem_replicate hc]
      decide
    have hall : ∀ c ∈ '0' :: '.' ::
        (List.replicate (-(e + 1)).toNat '0' ++ ds.map digitChar),
        (decide (c ≠ 'e')) = true := by
      intro c hc
      rcases List.mem_cons.mp hc with hc | hc
      · subst hc; decide
      rcases List.mem_cons.mp hc with hc | hc
      · subst hc; decide
      rcases List.mem_append.mp hc with hc | hc
      · exact isDigit_ne_e c (hrepd c hc)
      · exact isDigit_ne_e c (hchd c hc)
    have hfilter : List.filter Char.isDigit ('0' :: '.' ::
        (List.replicate (-(e + 1)).toNat '0' ++ ds.map digitChar)) =
        '0' :: (List.replicate (-(e + 1)).toNat '0' ++ ds.map digitChar) := by
      rw [List.filter_cons, List.filter_cons, List.filter_append,
        List.filter_eq_self.mpr hrepd, List.filter_eq_self.mpr hchd]
      simp [show ('.').isDigit = false from by decide,
        show ('0').isDigit = true from by decide]
    have hzeros : ∀ c ∈ '0' :: List.replicate (-(e + 1)).toNat '0',
        (decide (c = '0')) = true := by
      intro c hc
      rcases List.mem_cons.mp hc with hc | hc
      · subst hc; decide
      · rw [List.eq_of_mem_replicate hc]; decide
    unfold sigDigitCount
    rw [takeWhile_all _ _ hall, hfilter,
      show ('0' :: (List.replicate (-(e + 1)).toNat '0' ++ ds.map digitChar)) =
        ('0' :: List.replicate (-(e + 1)).toNat '0') ++ ds.map digitChar from rfl,
      dropWhile_append_all _ _ _ hzeros]
    calc (List.dropWhile _ (ds.map digitChar)).length
        ≤ (ds.map digitChar).length := (List.dropWhile_sublist _).length_le
      _ ≤ 7 := by
          rw [List.length_map]
          exact hlen

theorem takeWhile_expPart (e : ℤ) :
    List.takeWhile (fun c => decide (c ≠ 'e')) (renderExpPart e) = [] := by
  simp only [renderExpPart]
  rw [List.takeWhile_cons]
  norm_num

theorem sigCount_renderSci (ds : List ℕ) (e : ℤ)
    (hlt : ∀ d ∈ ds, d < 10) (hlen : ds.length ≤ 7) :
    sigDigitCount (renderSci (ds.map digitChar) e) ≤ 7 := by
  have hchd : ∀ c ∈ ds.map digitChar, c.isDigit = true := by
    intro c hc
    obtain ⟨d, hd, rfl⟩ := List.mem_map.mp hc
    exact digitChar_isDigit d (hlt d hd)
  simp only [renderSci]
  cases hc : ds.map digitChar with
  | nil =>
    have hz : ∀ c ∈ ['0'], (decide (c ≠ 'e')) = true := by
      intro c hcm
      rcases List.mem_cons.mp hcm with h | h
      · subst h; decide
      · simp at h
    unfold sigDigitCount
    rw [takeWhile_append_all _ _ _ hz, takeWhile_expPart]
    decide
  | cons d rest =>
    have hd : d.isDigit = true := hchd d (by rw [hc]; simp)
    have hrest : ∀ c ∈ rest, c.isDigit = true := by
      intro c hcm
      exact hchd c (by rw [hc]; simp [hcm])
    show sigDigitCount ((if rest = [] then [d] else d :: '.' :: rest) ++
      renderExpPart e) ≤ 7
    by_cases hre : rest = []
    · rw [if_pos hre]
      have hz : ∀ c ∈ [d], (decide (c ≠ 'e')) = true := by
        intro c hcm
        rcases List.mem_cons.mp hcm with h | h
        · rw [h]; exact isDigit_ne_e d hd
        · simp at h
      unfold sigDigitCount
      rw [takeWhile_append_all _ _ _ hz, takeWhile_expPart]
      calc (List.dropWhile _ (List.filter Char.isDigit ([d] ++ []))).length
          ≤ (List.filter Char.isDigit ([d] ++ [])).length :=
            (List.dropWhile_sublist _).length_le
        _ ≤ ([d] ++ [] : List Char).length := List.length_filter_le _ _
        _ ≤ 7 := by simp
    · rw [if_neg hre]
      have hz : ∀ c ∈ d :: '.' :: rest, (decide (c ≠ 'e')) = true := by
        intro c hcm
        rcases List.mem_cons.mp hcm with h | h
        · rw [h]; exact isDigit_ne_e d hd
        rcases List.mem_cons.mp h with h | h
        · subst h; decide
        · exact isDigit_ne_e c (hrest c h)
      have hfilter : List.filter Char.isDigit (d :: '.' :: rest) = d :: rest := by
        rw [List.filter_cons, List.filter_cons, List.filter_eq_self.mpr hrest]
        simp [hd, show ('.').isDigit = false from by decide]
      unfold sigDigitCount
      rw [takeWhile_append_all _ _ _ hz, takeWhile_expPart, List.append_nil,
        hfilter]
      calc (List.dropWhile _ (d :: rest)).length
          ≤ (d :: rest).length := (List.dropWhile_sublist _).length_le
        _ = (ds.map digitChar).length := by rw [hc]
        _ ≤ 7 := by rw [List.length_map]; exact hlen

theorem sigDigitCount_fmtPos_le (a : ℚ) (ha : 0 < a) :
    sigDigitCount (fmtPosG7 a) ≤ 7 := by
  have hm := sig7_lt a ha
  have hlen := sigDigits_length_le (sig7 a).1 hm
  have hlt := fun d hd => sigDigits_mem_lt (sig7 a).1 d hd
  simp only [fmtPosG7]
  split
  next h => exact sigCount_renderFixed _ _ hlt hlen h.2
  next h => exact sigCount_renderSci _ _ hlt hlen

theorem sigDigitCount_cons_minus (s : List Char) :
    sigDigitCount ('-' :: s) = sigDigitCount s := by
  unfold sigDigitCount
  rw [List.takeWhile_cons]
  simp only [show (decide (('-') ≠ 'e')) = true from by decide, if_true,
    List.filter_cons, show ('-').isDigit = false from by decide]
  simp

/-- Each `.7g`-rendered literal base shows at most 7 significant digits. -/
theorem sigDigitCount_fmtG7_le (v : ℚ) : sigDigitCount (fmtG7 v) ≤ 7 := by
  by_cases h0 : v = 0
  · rw [show fmtG7 v = ['0'] by simp [fmtG7, h0]]
    decide
  · by_cases hneg : v < 0
    · rw [show fmtG7 v = '-' :: fmtPosG7 (-v) by simp [fmtG7, h0, hneg],
        sigDigitCount_cons_minus]
      exact sigDigitCount_fmtPos_le (-v) (by linarith)
    · rw [show fmtG7 v = fmtPosG7 v by simp [fmtG7, h0, hneg]]
      exact sigDigitCount_fmtPos_le v
        (lt_of_le_of_ne (not_lt.mp hneg) (Ne.symm h0))

theorem mkFloatLiteral_int (v : ℚ) (h : isIntString (fmtG7 v) = true) :
    mkFloatLiteral v = fmtG7 v ++ ['.', '0', 'f'] := by
  simp only [mkFloatLiteral]
  rw [if_pos h]
  simp

theorem groupLinesAux_le12 : ∀ (lits : List (List Char))
    (line : List (List Char)), line.length ≤ 11 →
    ∀ l ∈ groupLinesAux lits line, l.length ≤ 12
  | [], line, hl, l, hmem => by
    by_cases h : line = []
    · simp [groupLinesAux, h] at hmem
    · simp only [groupLinesAux, if_neg h] at hmem
      rcases List.mem_cons.mp hmem with h2 | h2
      · subst h2; omega
      · simp at h2
  | v :: rest, line, hl, l, hmem => by
    rw [show groupLinesAux (v :: rest) line =
      (if 12 ≤ (line ++ [v]).length then
        (line ++ [v]) :: groupLinesAux rest []
       else groupLinesAux rest (line ++ [v])) from rfl] at hmem
    have hlen2 : (line ++ [v]).length = line.length + 1 := by simp
    by_cases hq : 12 ≤ (line ++ [v]).length
    · rw [if_pos hq] at hmem
      rcases List.mem_cons.mp hmem with h2 | h2
      · subst h2; omega
      · exact groupLinesAux_le12 rest [] (by simp) l h2
    · rw [if_neg hq] at hmem
      exact groupLinesAux_le12 rest (line ++ [v]) (by omega) l hmem

theorem groupLinesAux_dropLast12 : ∀ (lits : List (List Char))
    (line : List (List Char)), line.length ≤ 11 →
    ∀ l ∈ (groupLinesAux lits line).dropLast, l.length = 12
  | [], line, hl, l, hmem => by
    by_cases h : line = []
    · simp [groupLinesAux, h] at hmem
    · simp [groupLinesAux, h] at hmem
  | v :: rest, line, hl, l, hmem => by
    rw [show groupLinesAux (v :: rest) line =
      (if 12 ≤ (line ++ [v]).length then
        (line ++ [v]) :: groupLinesAux rest []
       else groupLinesAux rest (line ++ [v])) from rfl] at hmem
    have hlen2 : (line ++ [v]).length = line.length + 1 := by simp
    by_cases hq : 12 ≤ (line ++ [v]).length
    · rw [if_pos hq] at hmem
      cases hrec : groupLinesAux rest [] with
      | nil =>
        rw [hrec] at hmem
        simp at hmem
      | cons x xs =>
        rw [hrec] at hmem
        rw [List.dropLast_cons₂] at hmem
        rcases List.mem_cons.mp hmem with h2 | h2
        · subst h2; omega
        · exact groupLinesAux_dropLast12 rest [] (by simp) l
            (by rw [hrec]; exact h2)
    · rw [if_neg hq] at hmem
      exact groupLinesAux_dropLast12 rest (line ++ [v]) (by omega) l hmem

/-- C8: in `_format_float_array`, every sample value is serialized by the
7-significant-digit formatter (so its rendered significand shows at most 7
significant digits); whenever the rendered base matches optional minus
followed by digits only, `".0"` is appended before the trailing `"f"`
suffix; and the emitted literals are wrapped at 12 per line — every line
holds at most 12 literals and every line except the last holds exactly 12. -/
theorem formatFloatArray_spec (values : List ℚ) :
    (∀ v ∈ values, sigDigitCount (fmtG7 v) ≤ 7) ∧
    (∀ v ∈ values, isIntString (fmtG7 v) = true →
      mkFloatLiteral v = fmtG7 v ++ ['.', '0', 'f']) ∧
    (∀ line ∈ groupLines (floatLiterals values), line.length ≤ 12) ∧
    (∀ line ∈ (groupLines (floatLiterals values)).dropLast,
      line.length = 12) :=
  ⟨fun v _ => sigDigitCount_fmtG7_le v,
   fun v _ h => mkFloatLiteral_int v h,
   fun line h => groupLinesAux_le12 _ [] (by simp) line h,
   fun line h => groupLinesAux_dropLast12 _ [] (by simp) line h⟩

end RoomIr
